import Mathlib

/-!
Shallow embedding of the logicle / biexponential transform engine
(`Logicle.cpp`) and its lookup-table accelerated variant (`FastLogicle.cpp`).

Doubles are modelled as real numbers; `machine epsilon` is the constant
2 ^ (-52) that `std::numeric_limits<double>::epsilon()` denotes.  C++
exceptions are modelled by an `Except` error monad; functions of the source
that cannot throw are plain functions.  The C++ `int` values (`bins`, loop
counters, binary-search bounds) are modelled as `ℤ` or `ℕ` as appropriate.
-/

namespace Logicle

/-- The three exception kinds of the source (`IllegalArgument` carries the
offending value, the two others carry a message). -/
inductive Err where
  | illegalArgument (value : ℝ) : Err
  | illegalParameter (message : String) : Err
  | didNotConverge (message : String) : Err

/-- The `logicle_params` structure (lookup table and bin count of the
accelerated variant are kept separately). -/
structure Params where
  T : ℝ
  W : ℝ
  M : ℝ
  A : ℝ
  a : ℝ
  b : ℝ
  c : ℝ
  d : ℝ
  f : ℝ
  w : ℝ
  x0 : ℝ
  x1 : ℝ
  x2 : ℝ
  xTaylor : ℝ
  taylor : List ℝ

/-- `Logicle::LN_10`. -/
noncomputable def LN_10 : ℝ := Real.log 10

/-- `Logicle::EPSILON`, the double machine epsilon `2^-52`. -/
noncomputable def EPSILON : ℝ := (2 : ℝ) ^ (-52 : ℤ)

/-- `Logicle::TAYLOR_LENGTH`. -/
def TAYLOR_LENGTH : ℕ := 16

/-- One round of the `solve` loop, iteration counter `i` as in the C++
`for (int i = 1; i < 20; ++i)`: reaching `i = 20` without convergence
throws `DidNotConverge`.  The C++ `last_f` starts as NaN (which compares
false to everything), modelled by `Option ℝ` starting as `none`. -/
noncomputable def solveGo (w tolerance f_b : ℝ) (d_lo d_hi d last_delta : ℝ)
    (last_f : Option ℝ) (f : ℝ) (i : ℕ) : Except Err ℝ :=
  if 20 ≤ i then .error (.didNotConverge "exceeded maximum iterations in solve()")
  else
    -- compute the derivative
    let df := 2 / d + w
    -- Newton step would leave the bracket, or is converging too slowly?
    let bisect := ((d - d_hi) * df - f) * ((d - d_lo) * df - f) ≥ 0 ∨
      |1.9 * f| > |last_delta * df|
    let delta := if bisect then (d_hi - d_lo) / 2 else f / df
    let d2 := if bisect then d_lo + delta else d - delta
    -- "nothing changed, we're done" early returns of both branches
    if (if bisect then d2 = d_lo else d2 = d) then .ok d2
    else if |delta| < tolerance then .ok d2
    else
      -- recompute the function
      let f2 := 2 * Real.log d2 + w * d2 + f_b
      if f2 = 0 ∨ last_f = some f2 then .ok d2
      else if f2 < 0 then solveGo w tolerance f_b d2 d_hi d2 delta (some f2) f2 (i + 1)
      else solveGo w tolerance f_b d_lo d2 d2 delta (some f2) f2 (i + 1)
termination_by 20 - i
decreasing_by
  all_goals omega

/-- `Logicle::solve`: find `d` with `2 ln(d) + w d = 2 ln(b) - w b` by a
safeguarded Newton / bisection iteration bracketed in `[0, b]`. -/
noncomputable def solve (b w : ℝ) : Except Err ℝ :=
  -- w == 0 means its really arcsinh
  if w = 0 then .ok b
  else
    let tolerance := 2 * b * EPSILON
    let d_lo : ℝ := 0
    let d_hi := b
    let d := (d_lo + d_hi) / 2
    let last_delta := d_hi - d_lo
    let f_b := -2 * Real.log b + w * b
    let f := 2 * Real.log d + w * d + f_b
    solveGo w tolerance f_b d_lo d_hi d last_delta none f 1

/-- The Taylor-coefficient loop of the initializer: running positive
and negative coefficients divided down by `b/(i+1)` resp. `-d/(i+1)`. -/
noncomputable def taylorGo (b d : ℝ) (posCoef negCoef : ℝ) (i : ℕ) : List ℝ :=
  if TAYLOR_LENGTH ≤ i then []
  else
    let pos := posCoef * (b / (i + 1))
    let neg := negCoef * (-d / (i + 1))
    (pos + neg) :: taylorGo b d pos neg (i + 1)
termination_by TAYLOR_LENGTH - i
decreasing_by
  all_goals simp [TAYLOR_LENGTH] at *; omega

/-- The bin-boundary adjustment of `A` performed by the initializer
when `bins > 0` (so that raw value zero falls on a bin boundary); with
`bins = 0` the argument `A` is kept. -/
noncomputable def adjustA (W M A : ℝ) (bins : ℤ) : ℝ :=
  if 0 < bins then
    let zero := (W + A) / (M + A)
    let zero2 := (⌊zero * (bins : ℝ) + 0.5⌋ : ℝ) / (bins : ℝ)
    (M * zero2 - W) / (1 - zero2)
  else A

/-- `Logicle::initialize` (named `init` here): validate the four user parameters, optionally
bin-adjust `A`, derive the breakpoints and biexponential coefficients
(calling `solve` for `d`) and the 16-term Taylor expansion with its second
coefficient forced to exactly 0. -/
noncomputable def init (T W M A : ℝ) (bins : ℤ) : Except Err Params :=
  if T ≤ 0 then .error (.illegalParameter "T is not positive")
  else if W < 0 then .error (.illegalParameter "W is negative")
  else if M ≤ 0 then .error (.illegalParameter "M is not positive")
  else if M < 2 * W then .error (.illegalParameter "W is too large")
  else if W < -A ∨ M - W < A + W then .error (.illegalParameter "A is too large")
  else
    let A2 := adjustA W M A bins
    let w := W / (M + A2)
    let x2 := A2 / (M + A2)
    let x1 := x2 + w
    let x0 := x2 + 2 * w
    let b := (M + A2) * LN_10
    (solve b w).map fun d =>
      let c_a := Real.exp (x0 * (b + d))
      let mf_a := Real.exp (b * x1) - c_a / Real.exp (d * x1)
      let a := T / ((Real.exp b - mf_a) - c_a / Real.exp d)
      let c := c_a * a
      let f := -mf_a * a
      let xT := x1 + w / 4
      let taylor := (taylorGo b d (a * Real.exp (b * x1)) (-c / Real.exp (d * x1)) 0).set 1 0
      ⟨T, W, M, A2, a, b, c, d, f, w, x0, x1, x2, xT, taylor⟩

/-- The inner loop of `Logicle::seriesBiexponential`
(`for (int i = TAYLOR_LENGTH - 2; i >= 2; --i) sum = (sum + taylor[i]) * x`). -/
noncomputable def seriesGo (taylor : List ℝ) (x : ℝ) (i : ℕ) (sum : ℝ) : ℝ :=
  if i < 2 then sum else seriesGo taylor x (i - 1) ((sum + taylor.getD i 0) * x)
termination_by i

/-- `Logicle::seriesBiexponential`: Horner evaluation of the Taylor series
around `x1`, skipping index 1 (identically zero by the Logicle condition). -/
noncomputable def seriesBiexponential (p : Params) (scale : ℝ) : ℝ :=
  let x := scale - p.x1
  let sum := p.taylor.getD (TAYLOR_LENGTH - 1) 0 * x
  let sum := seriesGo p.taylor x (TAYLOR_LENGTH - 2) sum
  (sum * x + p.taylor.getD 0 0) * x

/-- The closed-form biexponential `a e^(b s) + f - c e^(-d s)` used by
`Logicle::inverse` away from the Taylor region. -/
noncomputable def closedBiexp (p : Params) (s : ℝ) : ℝ :=
  (p.a * Real.exp (p.b * s) + p.f) - p.c / Real.exp (p.d * s)

/-- `Logicle::inverse`: reflect positions below `x1`, evaluate the Taylor
series below `xTaylor` and the closed form elsewhere, restore the sign.
The source contains no throw: the function is total. -/
noncomputable def inverse (p : Params) (scale : ℝ) : ℝ :=
  -- reflect negative scale regions
  let s := if scale < p.x1 then 2 * p.x1 - scale else scale
  -- compute the biexponential
  let value := if s < p.xTaylor then seriesBiexponential p s
    else (p.a * Real.exp (p.b * s) + p.f) - p.c / Real.exp (p.d * s)
  -- handle scale for negative values
  if scale < p.x1 then -value else value

/-- One round of the Halley iteration of `Logicle::scale`
(`for (int i = 0; i < 10; ++i)`): reaching `i = 10` without convergence
throws `DidNotConverge`. -/
noncomputable def scaleGo (p : Params) (value tolerance : ℝ) (negative : Bool)
    (x : ℝ) (i : ℕ) : Except Err ℝ :=
  if 10 ≤ i then .error (.didNotConverge "scale() didn't converge")
  else
    let ae2bx := p.a * Real.exp (p.b * x)
    let ce2mdx := p.c / Real.exp (p.d * x)
    let y := if x < p.xTaylor then seriesBiexponential p x - value
      else (ae2bx + p.f) - (ce2mdx + value)
    let abe2bx := p.b * ae2bx
    let cde2mdx := p.d * ce2mdx
    let dy := abe2bx + cde2mdx
    let ddy := p.b * abe2bx - p.d * cde2mdx
    -- Halley's method with cubic convergence
    let delta := y / (dy * (1 - y * ddy / (2 * dy * dy)))
    let x2 := x - delta
    if |delta| < tolerance then .ok (if negative then 2 * p.x1 - x2 else x2)
    else scaleGo p value tolerance negative x2 (i + 1)
termination_by 10 - i
decreasing_by
  all_goals omega

/-- `Logicle::scale`: zero maps to `x1` directly; otherwise reflect a
negative value, pick the quasi-linear or logarithmic initial guess and run
the Halley iteration. -/
noncomputable def scale (p : Params) (value : ℝ) : Except Err ℝ :=
  -- handle true zero separately
  if value = 0 then .ok p.x1
  else
    -- reflect negative values
    let v := if value < 0 then -value else value
    -- initial guess at solution
    let x := if v < p.f then p.x1 + v / p.taylor.getD 0 0 else Real.log (v / p.a) / p.b
    -- try for double precision unless in extended range
    let tolerance := if 1 < x then 3 * x * EPSILON else 3 * EPSILON
    scaleGo p v tolerance (decide (value < 0)) x 0

/-- The two loops filling the axis-label vector.  `fill1` is
`for (int i = 1; i <= nn; ++i) { label[nn-i] = -x; label[nn+i] = x; x *= 10; }`
(out-of-range stores, possible only when `np < nn`, are undefined behaviour
in C++ and no-ops of `List.set` here); it returns the grown `x` for the
second loop. -/
noncomputable def fill1 (label : List ℝ) (nn : ℤ) (x : ℝ) (i : ℤ) : List ℝ × ℝ :=
  if i ≤ nn then
    fill1 ((label.set (nn - i).toNat (-x)).set (nn + i).toNat x) nn (x * 10) (i + 1)
  else (label, x)
termination_by (nn + 1 - i).toNat
decreasing_by
  omega

/-- `for (int i = nn + 1; i <= np; ++i) { label[nn+i] = x; x *= 10; }`. -/
noncomputable def fill2 (label : List ℝ) (nn np : ℤ) (x : ℝ) (i : ℤ) : List ℝ :=
  if i ≤ np then fill2 (label.set (nn + i).toNat x) nn np (x * 10) (i + 1)
  else label
termination_by (np + 1 - i).toNat
decreasing_by
  omega

/-- `Logicle::axisLabels`: decade-aligned tick values.  `nn` negative labels,
one zero label, `np` positive labels; the vector starts from `resize`, whose
new elements are value-initialized to `0.0`. -/
noncomputable def axisLabels (p : Params) : List ℝ :=
  -- number of decades in the positive logarithmic region
  let pd := p.M - 2 * p.W
  -- smallest power of 10 in the region
  let log10x : ℝ := (⌈Real.log p.T / LN_10 - pd⌉ : ℤ)
  -- data value at that point
  let x := Real.exp (LN_10 * log10x)
  -- number of positive labels
  let xnp : ℝ × ℤ := if p.T < x then (p.T, 1)
    else (x, ⌊Real.log p.T / LN_10 - log10x⌋ + 1)
  let x := xnp.1
  let np := xnp.2
  -- bottom of scale
  let B := inverse p 0
  -- number of negative labels
  let nn : ℤ := if -B < x then 0
    else if x = p.T then 1
    else ⌊Real.log (-B) / LN_10 - log10x⌋ + 1
  -- fill in the axis labels
  let label : List ℝ := List.replicate (nn + np + 1).toNat 0
  let label := label.set nn.toNat 0
  let fx := fill1 label nn x 1
  fill2 fx.1 nn np fx.2 (nn + 1)

/-- `Logicle::slope`: the local slope of the biexponential at a position
(reflected below `x1`). -/
noncomputable def slope (p : Params) (scale : ℝ) : ℝ :=
  -- reflect negative scale regions
  let s := if scale < p.x1 then 2 * p.x1 - scale else scale
  -- compute the slope of the biexponential
  p.a * p.b * Real.exp (p.b * s) + p.c * p.d / Real.exp (p.d * s)

/-- `Logicle::dynamicRange`. -/
noncomputable def dynamicRange (p : Params) : ℝ := slope p 1 / slope p p.x1

end Logicle

namespace FastLogicle

open Logicle

/-- `FastLogicle::DEFAULT_BINS = 1 << 12`. -/
def DEFAULT_BINS : ℤ := 4096

/-- The lookup table of `FastLogicle::initialize`:
`lookup[i] = Logicle::inverse(i / bins)` for `i = 0 .. bins`. -/
noncomputable def buildLookup (p : Params) (bins : ℤ) : List ℝ :=
  (List.range (bins + 1).toNat).map fun i : ℕ => Logicle.inverse p ((i : ℝ) / (bins : ℝ))

/-- The binary-search loop of `FastLogicle::intScale` over the (abstract)
lookup table: `mid = (lo + hi) >> 1` (C++ arithmetic shift; for the
non-negative `lo + hi` reachable from `intScale` this is exactly `ediv` by
2, which `/` on `ℤ` denotes). -/
noncomputable def intScaleGo (lookup : ℤ → ℝ) (bins : ℤ) (value : ℝ) (lo hi : ℤ) :
    Except Err ℤ :=
  if lo ≤ hi then
    let mid := (lo + hi) / 2
    let key := lookup mid
    if value < key then intScaleGo lookup bins value lo (mid - 1)
    else if key < value then intScaleGo lookup bins value (mid + 1) hi
    else if mid < bins then .ok mid
    -- equal to table[bins] which is for interpolation only
    else .error (.illegalArgument value)
  -- check for out of range
  else if hi < 0 ∨ bins < lo then .error (.illegalArgument value)
  else .ok (lo - 1)
termination_by (hi + 1 - lo).toNat
decreasing_by
  all_goals omega

/-- `FastLogicle::intScale`: binary search for the bin containing `value`. -/
noncomputable def intScale (lookup : ℤ → ℝ) (bins : ℤ) (value : ℝ) : Except Err ℤ :=
  intScaleGo lookup bins value 0 bins

/-- `FastLogicle::scale`: inverse-interpolate the table linearly. -/
noncomputable def scale (lookup : ℤ → ℝ) (bins : ℤ) (value : ℝ) : Except Err ℝ :=
  (intScale lookup bins value).map fun index =>
    let delta := (value - lookup index) / (lookup (index + 1) - lookup index)
    ((index : ℝ) + delta) / (bins : ℝ)

/-- `FastLogicle::inverse(double)`: find the bin of `scale * bins` and
interpolate the table linearly. -/
noncomputable def inverse (lookup : ℤ → ℝ) (bins : ℤ) (scale : ℝ) : Except Err ℝ :=
  -- find the bin
  let x := scale * (bins : ℝ)
  let index := ⌊x⌋
  if index < 0 ∨ bins ≤ index then .error (.illegalArgument scale)
  else
    -- interpolate the table linearly
    let delta := x - (index : ℝ)
    .ok ((1 - delta) * lookup index + delta * lookup (index + 1))

/-- `FastLogicle::inverse(int)`: direct table lookup. -/
noncomputable def intInverse (lookup : ℤ → ℝ) (bins : ℤ) (index : ℤ) : Except Err ℝ :=
  if index < 0 ∨ bins ≤ index then .error (.illegalArgument (index : ℝ))
  else .ok (lookup index)

end FastLogicle

/-- A concrete strictly increasing table (the identity), used to
instantiate the table-level theorems at a concrete input. -/
noncomputable def idTable : ℤ → ℝ := fun k => (k : ℝ)

namespace Logicle

/-- The coefficient relations `init` establishes in every successfully
constructed parameter set (`c = c_a a` and `f = -mf_a a` for
`c_a = e^(x0 (b+d))`, `mf_a = e^(b x1) - c_a e^(-d x1)`), plus positivity
of the validated `T`.  `init_derived` below proves that every parameter
set returned by `init` satisfies it. -/
def Derived (p : Params) : Prop :=
  0 < p.T ∧
  p.c = Real.exp (p.x0 * (p.b + p.d)) * p.a ∧
  p.f = -(Real.exp (p.b * p.x1) - Real.exp (p.x0 * (p.b + p.d)) / Real.exp (p.d * p.x1)) * p.a

/-- A concrete parameter set satisfying `Derived` (the degenerate `W = 0`
shape, where the solver returns `d = b` exactly). -/
noncomputable def wParams : Params :=
  ⟨1, 0, 1, 0, 1, 1, Real.exp (0 * (1 + 1)) * 1, 1,
   -(Real.exp (1 * 0) - Real.exp (0 * (1 + 1)) / Real.exp (1 * 0)) * 1,
   0, 0, 0, 0, 0, []⟩

end Logicle

/-- C1: for every transform, `Logicle::scale` applied to the value 0 returns
exactly the stored breakpoint `x1`, by the dedicated zero branch (no
iteration, no reflection). -/
theorem scale_zero_eq_x1 (p : Logicle.Params) : Logicle.scale p 0 = .ok p.x1 := by
  simp [Logicle.scale]

/-- C3: `Logicle::inverse` is total (it is a plain function, mirroring the
throw-free source) and only ever evaluates the Taylor polynomial or the
closed-form biexponential, on the argument reflected about `x1`, restoring
the sign afterwards. -/
theorem inverse_total_algebraic (p : Logicle.Params) (s : ℝ) :
    Logicle.inverse p s =
      if s < p.x1 then
        -(if 2 * p.x1 - s < p.xTaylor then Logicle.seriesBiexponential p (2 * p.x1 - s)
          else Logicle.closedBiexp p (2 * p.x1 - s))
      else
        if s < p.xTaylor then Logicle.seriesBiexponential p s
        else Logicle.closedBiexp p s := by
  simp only [Logicle.inverse, Logicle.closedBiexp]
  split_ifs <;> rfl

/-- C8: the iterative solvers have hard caps: the Halley loop of
`Logicle::scale` fails with `DidNotConverge` as soon as its counter reaches
10, and the Newton/bisection loop of `Logicle::solve` as soon as its counter
reaches 20 (the loops only ever increment the counter by one, so at most
10 resp. at most 19 refinement rounds run before the failure). -/
theorem iteration_caps :
    (∀ (p : Logicle.Params) (value tolerance : ℝ) (negative : Bool) (x : ℝ) (i : ℕ),
      10 ≤ i → Logicle.scaleGo p value tolerance negative x i =
        .error (.didNotConverge "scale() didn't converge")) ∧
    (∀ (w tolerance f_b d_lo d_hi d last_delta : ℝ) (last_f : Option ℝ) (f : ℝ) (i : ℕ),
      20 ≤ i → Logicle.solveGo w tolerance f_b d_lo d_hi d last_delta last_f f i =
        .error (.didNotConverge "exceeded maximum iterations in solve()")) := by
  constructor
  · intro p value tolerance negative x i h
    rw [Logicle.scaleGo]
    rw [if_pos h]
  · intro w tolerance f_b d_lo d_hi d last_delta last_f f i h
    rw [Logicle.solveGo]
    rw [if_pos h]

/-- The solve loop either converges to a value or fails with
`DidNotConverge`; no other outcome exists. -/
theorem solveGo_classify (n : ℕ) :
    ∀ (w tolerance f_b d_lo d_hi d last_delta : ℝ) (last_f : Option ℝ) (f : ℝ) (i : ℕ),
      20 - i ≤ n →
      (∃ r, Logicle.solveGo w tolerance f_b d_lo d_hi d last_delta last_f f i = .ok r) ∨
      Logicle.solveGo w tolerance f_b d_lo d_hi d last_delta last_f f i =
        .error (.didNotConverge "exceeded maximum iterations in solve()") := by
  induction n with
  | zero =>
    intro w tolerance f_b d_lo d_hi d last_delta last_f f i hn
    right
    rw [Logicle.solveGo, if_pos (by omega : 20 ≤ i)]
  | succ n ih =>
    intro w tolerance f_b d_lo d_hi d last_delta last_f f i hn
    rw [Logicle.solveGo]
    simp only []
    split_ifs with h1
    all_goals first
      | exact Or.inr rfl
      | exact Or.inl ⟨_, rfl⟩
      | exact ih _ _ _ _ _ _ _ _ _ _ (by omega)

/-- `Logicle::solve` either returns a rate `d` or fails with
`DidNotConverge`. -/
theorem solve_classify (b w : ℝ) :
    (∃ r, Logicle.solve b w = .ok r) ∨
    Logicle.solve b w = .error (.didNotConverge "exceeded maximum iterations in solve()") := by
  rw [Logicle.solve]
  split_ifs with h
  · exact Or.inl ⟨b, rfl⟩
  · exact solveGo_classify 19 _ _ _ _ _ _ _ _ _ _ (by omega)

/-- C4: construction fails with `IllegalParameter` exactly when one of the
documented constraints `T > 0`, `W ≥ 0`, `M > 0`, `2W ≤ M`, `-A ≤ W`,
`A + W ≤ M - W` is violated, and the first violated check (in source order)
determines the human-readable reason.  (In the `Except` model no partially
initialized instance exists: a failing `init` returns no `Params` at all.) -/
theorem init_illegalParameter_iff (T W M A : ℝ) (bins : ℤ) :
    ((∃ msg, Logicle.init T W M A bins = .error (.illegalParameter msg)) ↔
      (T ≤ 0 ∨ W < 0 ∨ M ≤ 0 ∨ M < 2 * W ∨ W < -A ∨ M - W < A + W)) ∧
    (T ≤ 0 → Logicle.init T W M A bins = .error (.illegalParameter "T is not positive")) ∧
    (0 < T → W < 0 → Logicle.init T W M A bins = .error (.illegalParameter "W is negative")) ∧
    (0 < T → 0 ≤ W → M ≤ 0 →
      Logicle.init T W M A bins = .error (.illegalParameter "M is not positive")) ∧
    (0 < T → 0 ≤ W → 0 < M → M < 2 * W →
      Logicle.init T W M A bins = .error (.illegalParameter "W is too large")) ∧
    (0 < T → 0 ≤ W → 0 < M → 2 * W ≤ M → (W < -A ∨ M - W < A + W) →
      Logicle.init T W M A bins = .error (.illegalParameter "A is too large")) := by
  refine ⟨⟨?_, ?_⟩, ?_, ?_, ?_, ?_, ?_⟩
  · intro hmsg
    by_contra hviol
    push_neg at hviol
    obtain ⟨h1, h2, h3, h4, h5, h6⟩ := hviol
    obtain ⟨msg, hmsg⟩ := hmsg
    rw [Logicle.init] at hmsg
    rw [if_neg (not_le.mpr h1), if_neg (not_lt.mpr h2), if_neg (not_le.mpr h3),
      if_neg (not_lt.mpr h4), if_neg (by push_neg; exact ⟨h5, h6⟩)] at hmsg
    simp only [] at hmsg
    rcases solve_classify ((M + Logicle.adjustA W M A bins) * Logicle.LN_10)
        (W / (M + Logicle.adjustA W M A bins)) with ⟨r, hr⟩ | hr
    · rw [hr] at hmsg
      simp [Except.map] at hmsg
    · rw [hr] at hmsg
      simp [Except.map] at hmsg
  · intro hviol
    rw [Logicle.init]
    by_cases c1 : T ≤ 0
    · rw [if_pos c1]; exact ⟨_, rfl⟩
    rw [if_neg c1]
    by_cases c2 : W < 0
    · rw [if_pos c2]; exact ⟨_, rfl⟩
    rw [if_neg c2]
    by_cases c3 : M ≤ 0
    · rw [if_pos c3]; exact ⟨_, rfl⟩
    rw [if_neg c3]
    by_cases c4 : M < 2 * W
    · rw [if_pos c4]; exact ⟨_, rfl⟩
    rw [if_neg c4]
    by_cases c5 : W < -A ∨ M - W < A + W
    · rw [if_pos c5]; exact ⟨_, rfl⟩
    exfalso
    push_neg at c5
    rcases hviol with h | h | h | h | h | h
    · exact c1 h
    · exact c2 h
    · exact c3 h
    · exact c4 h
    · exact absurd h (not_lt.mpr c5.1)
    · exact absurd h (not_lt.mpr c5.2)
  · intro h1
    rw [Logicle.init, if_pos h1]
  · intro h1 h2
    rw [Logicle.init, if_neg (not_le.mpr h1), if_pos h2]
  · intro h1 h2 h3
    rw [Logicle.init, if_neg (not_le.mpr h1), if_neg (not_lt.mpr h2), if_pos h3]
  · intro h1 h2 h3 h4
    rw [Logicle.init, if_neg (not_le.mpr h1), if_neg (not_lt.mpr h2),
      if_neg (not_le.mpr h3), if_pos h4]
  · intro h1 h2 h3 h4 h5
    rw [Logicle.init, if_neg (not_le.mpr h1), if_neg (not_lt.mpr h2),
      if_neg (not_le.mpr h3), if_neg (not_lt.mpr h4), if_pos h5]

/-- C10: the stored user parameters are the constructor arguments except
`A`, which is stored bin-adjusted (`adjustA`, the identity when
`bins = 0`); at `W = 0, M = 2, A = 1, bins = 1` the adjusted value `0`
differs from the constructor argument `1`. -/
theorem accessors_spec :
    (∀ (T W M A : ℝ) (bins : ℤ),
      (Logicle.init T W M A bins).map (fun p => (p.T, p.W, p.M, p.A)) =
        (Logicle.init T W M A bins).map
          (fun _ => (T, W, M, Logicle.adjustA W M A bins))) ∧
    Logicle.adjustA 0 2 1 1 = 0 := by
  constructor
  · intro T W M A bins
    rw [Logicle.init]
    split_ifs
    · rfl
    · rfl
    · rfl
    · rfl
    · rfl
    simp only []
    cases hs : Logicle.solve ((M + Logicle.adjustA W M A bins) * Logicle.LN_10)
        (W / (M + Logicle.adjustA W M A bins)) <;> simp [Except.map]
  · rw [Logicle.adjustA, if_pos (by norm_num : (0:ℤ) < 1)]
    norm_num

/-- Every parameter set built by `init` satisfies the `Derived` coefficient
relations. -/
theorem init_derived (T W M A : ℝ) (bins : ℤ) (p : Logicle.Params)
    (h : Logicle.init T W M A bins = .ok p) : Logicle.Derived p := by
  rw [Logicle.init] at h
  split_ifs at h with h1 h2 h3 h4 h5
  simp only [] at h
  rcases hs : Logicle.solve ((M + Logicle.adjustA W M A bins) * Logicle.LN_10)
      (W / (M + Logicle.adjustA W M A bins)) with e | d
  all_goals rw [hs] at h
  · simp [Except.map] at h
  · simp only [Except.map, Except.ok.injEq] at h
    subst h
    refine ⟨by linarith [not_le.mp h1], rfl, rfl⟩

/-- C2: for every validly constructed transform (any parameter set
satisfying the relations `init` establishes), `Logicle::inverse` satisfies
the reflection identity `inverse(2 x1 - s) = -inverse(s)` at every
position `s`. -/
theorem inverse_reflection (p : Logicle.Params) (h : Logicle.Derived p) (s : ℝ) :
    Logicle.inverse p (2 * p.x1 - s) = -Logicle.inverse p s := by
  obtain ⟨hT, hc, hf⟩ := h
  have unfoldGe : ∀ t, ¬ t < p.x1 → Logicle.inverse p t =
      (if t < p.xTaylor then Logicle.seriesBiexponential p t
        else (p.a * Real.exp (p.b * t) + p.f) - p.c / Real.exp (p.d * t)) := by
    intro t ht
    simp only [Logicle.inverse, if_neg ht]
  have unfoldLt : ∀ t, t < p.x1 → Logicle.inverse p t =
      -(if 2 * p.x1 - t < p.xTaylor then Logicle.seriesBiexponential p (2 * p.x1 - t)
        else (p.a * Real.exp (p.b * (2 * p.x1 - t)) + p.f) -
          p.c / Real.exp (p.d * (2 * p.x1 - t))) := by
    intro t ht
    simp only [Logicle.inverse, if_pos ht]
  rcases lt_trichotomy s p.x1 with hs | hs | hs
  · rw [unfoldLt s hs, neg_neg,
      unfoldGe (2 * p.x1 - s) (by linarith)]
  · subst hs
    have h0 : Logicle.inverse p p.x1 = 0 := by
      rw [unfoldGe p.x1 (lt_irrefl p.x1)]
      split_ifs with hxt
      · simp [Logicle.seriesBiexponential]
      · rw [hc, hf]
        ring
    rw [show 2 * p.x1 - p.x1 = p.x1 by ring, h0, neg_zero]
  · rw [unfoldLt (2 * p.x1 - s) (by linarith),
      show 2 * p.x1 - (2 * p.x1 - s) = s from by ring,
      unfoldGe s (by linarith)]

/-- Witness for C2: the reflection identity at the concrete `Derived`
parameter set `wParams` and position `s = 1`. -/
theorem inverse_reflection_witness :
    Logicle.inverse Logicle.wParams (2 * Logicle.wParams.x1 - 1) =
      -Logicle.inverse Logicle.wParams 1 :=
  inverse_reflection Logicle.wParams ⟨by norm_num [Logicle.wParams], rfl, rfl⟩ 1

/-- Invariant-based characterization of the binary-search loop of
`FastLogicle::intScale`: starting from a bracket `[lo, hi]` whose outside
is already classified, the loop returns the bin index of `value` or fails
with `IllegalArgument` exactly for out-of-table values. -/
theorem intScaleGo_spec (lookup : ℤ → ℝ) (bins : ℤ) (value : ℝ)
    (hmono : ∀ i j : ℤ, 0 ≤ i → i < j → j ≤ bins → lookup i < lookup j)
    (hbins : 0 ≤ bins) :
    ∀ (n : ℕ) (lo hi : ℤ), (hi + 1 - lo).toNat ≤ n →
      0 ≤ lo → hi ≤ bins → lo ≤ hi + 1 →
      (∀ j, 0 ≤ j → j < lo → lookup j < value) →
      (∀ j, hi < j → j ≤ bins → value < lookup j) →
      (∀ i, FastLogicle.intScaleGo lookup bins value lo hi = .ok i →
        0 ≤ i ∧ i < bins ∧ lookup i ≤ value ∧ value < lookup (i + 1)) ∧
      (∀ e, FastLogicle.intScaleGo lookup bins value lo hi = .error e →
        e = .illegalArgument value ∧ (value < lookup 0 ∨ lookup bins ≤ value)) := by
  intro n
  induction n with
  | zero =>
    intro lo hi hn hlo hhi hlohi hleft hright
    have hgt : hi < lo := by omega
    rw [FastLogicle.intScaleGo, if_neg (not_le.mpr hgt)]
    split_ifs with hout
    · refine ⟨fun i hi' => absurd hi' (by simp), fun e he => ?_⟩
      injection he with he'
      refine ⟨he'.symm, ?_⟩
      rcases hout with h | h
      · exact Or.inl (hright 0 (by omega) hbins)
      · exact Or.inr (le_of_lt (hleft bins hbins (by omega)))
    · push_neg at hout
      refine ⟨fun i hi' => ?_, fun e he => absurd he (by simp)⟩
      injection hi' with hi''
      subst hi''
      refine ⟨by omega, by omega, le_of_lt (hleft (lo - 1) (by omega) (by omega)), ?_⟩
      rw [show lo - 1 + 1 = lo by ring]
      exact hright lo (by omega) (by omega)
  | succ n ih =>
    intro lo hi hn hlo hhi hlohi hleft hright
    by_cases hle : lo ≤ hi
    · have hmid1 : lo ≤ (lo + hi) / 2 := by omega
      have hmid2 : (lo + hi) / 2 ≤ hi := by omega
      rw [FastLogicle.intScaleGo, if_pos hle]
      simp only []
      split_ifs with hvk hkv hmb
      · refine ih lo ((lo + hi) / 2 - 1) (by omega) hlo (by omega) (by omega) hleft ?_
        intro j hj hjb
        rcases eq_or_lt_of_le (show (lo + hi) / 2 ≤ j by omega) with he | hlt
        · rw [← he]; exact hvk
        · exact lt_trans hvk (hmono ((lo + hi) / 2) j (by omega) hlt hjb)
      · refine ih ((lo + hi) / 2 + 1) hi (by omega) (by omega) hhi (by omega) ?_ hright
        intro j hj hjlt
        rcases eq_or_lt_of_le (show j ≤ (lo + hi) / 2 by omega) with he | hlt
        · rw [he]; exact hkv
        · exact lt_trans (hmono j ((lo + hi) / 2) hj hlt (by omega)) hkv
      · have hveq : value = lookup ((lo + hi) / 2) :=
          le_antisymm (not_lt.mp hkv) (not_lt.mp hvk)
        refine ⟨fun i hi' => ?_, fun e he => absurd he (by simp)⟩
        injection hi' with hi''
        subst hi''
        refine ⟨by omega, hmb, le_of_eq hveq.symm, ?_⟩
        rw [hveq]
        exact hmono ((lo + hi) / 2) ((lo + hi) / 2 + 1) (by omega) (by omega) (by omega)
      · refine ⟨fun i hi' => absurd hi' (by simp), fun e he => ?_⟩
        injection he with he'
        refine ⟨he'.symm, Or.inr ?_⟩
        rw [show bins = (lo + hi) / 2 by omega]
        exact not_lt.mp hvk
    · exact ih lo hi (by omega) hlo hhi hlohi hleft hright

/-- C6: over any strictly increasing table, `FastLogicle::intScale` returns
the index `i` with `lookup[i] ≤ value < lookup[i+1]` (always in
`[0, bins)`); a value equal to `lookup[bins]` and any value outside
`[lookup[0], lookup[bins]]` fail with `IllegalArgument`, and every failure
is an `IllegalArgument` at an out-of-table value. -/
theorem intScale_spec (lookup : ℤ → ℝ) (bins : ℤ) (value : ℝ) (hbins : 0 ≤ bins)
    (hmono : ∀ i j : ℤ, 0 ≤ i → i < j → j ≤ bins → lookup i < lookup j) :
    (∀ i, FastLogicle.intScale lookup bins value = .ok i →
      0 ≤ i ∧ i < bins ∧ lookup i ≤ value ∧ value < lookup (i + 1)) ∧
    (∀ e, FastLogicle.intScale lookup bins value = .error e →
      e = .illegalArgument value ∧ (value < lookup 0 ∨ lookup bins ≤ value)) ∧
    (value = lookup bins →
      FastLogicle.intScale lookup bins value = .error (.illegalArgument value)) ∧
    ((value < lookup 0 ∨ lookup bins < value) →
      FastLogicle.intScale lookup bins value = .error (.illegalArgument value)) := by
  obtain ⟨hok, herr⟩ := intScaleGo_spec lookup bins value hmono hbins
    (bins + 1).toNat 0 bins (by omega) le_rfl le_rfl (by omega)
    (fun j h1 h2 => absurd h2 (by omega))
    (fun j h1 h2 => absurd h1 (by omega))
  have hup : ∀ i : ℤ, 0 ≤ i → i + 1 ≤ bins → lookup (i + 1) ≤ lookup bins := by
    intro i hi0 hi
    rcases eq_or_lt_of_le hi with he | hlt
    · rw [he]
    · exact le_of_lt (hmono (i + 1) bins (by omega) hlt le_rfl)
  refine ⟨hok, herr, ?_, ?_⟩
  · intro hv
    rcases hres : FastLogicle.intScale lookup bins value with e | i
    · obtain ⟨he1, _⟩ := herr e hres
      rw [he1]
    · exfalso
      obtain ⟨hi0, hib, hlo2, hhi2⟩ := hok i hres
      have h1 := hup i hi0 (by omega)
      rw [hv] at hhi2
      linarith
  · intro hout
    rcases hres : FastLogicle.intScale lookup bins value with e | i
    · obtain ⟨he1, _⟩ := herr e hres
      rw [he1]
    · exfalso
      obtain ⟨hi0, hib, hlo2, hhi2⟩ := hok i hres
      rcases hout with h | h
      · have h2 : lookup 0 ≤ lookup i := by
          rcases eq_or_lt_of_le hi0 with he | hlt
          · rw [← he]
          · exact le_of_lt (hmono 0 i le_rfl hlt (by omega))
        linarith
      · have h2 := hup i hi0 (by omega)
        linarith

/-- Witness for C6: the `intScale` characterization instantiated on the
strictly increasing identity table with `bins = 2` and `value = 1/2`. -/
theorem intScale_spec_witness :
    (∀ i, FastLogicle.intScale idTable 2 (1/2) = .ok i →
      0 ≤ i ∧ i < 2 ∧ idTable i ≤ 1/2 ∧ 1/2 < idTable (i + 1)) ∧
    (∀ e, FastLogicle.intScale idTable 2 (1/2) = .error e →
      e = .illegalArgument (1/2) ∧ ((1/2 : ℝ) < idTable 0 ∨ idTable 2 ≤ 1/2)) ∧
    ((1/2 : ℝ) = idTable 2 →
      FastLogicle.intScale idTable 2 (1/2) = .error (.illegalArgument (1/2))) ∧
    (((1/2 : ℝ) < idTable 0 ∨ idTable 2 < 1/2) →
      FastLogicle.intScale idTable 2 (1/2) = .error (.illegalArgument (1/2))) :=
  intScale_spec idTable 2 (1/2) (by norm_num)
    (fun i j _ h2 _ => by simp only [idTable]; exact_mod_cast h2)

/-- C7: the position-based `FastLogicle::inverse` fails with
`IllegalArgument` exactly when the position lies outside `[0, 1)`
(equivalently, when `floor(position * bins)` is not in `[0, bins)`), and
otherwise linearly interpolates between the two table entries around
`position * bins`. -/
theorem fast_inverse_spec (lookup : ℤ → ℝ) (bins : ℤ) (position : ℝ) (hb : 0 < bins) :
    ((∃ e, FastLogicle.inverse lookup bins position = .error e) ↔
      ¬(0 ≤ position ∧ position < 1)) ∧
    (∀ e, FastLogicle.inverse lookup bins position = .error e →
      e = .illegalArgument position) ∧
    (0 ≤ position → position < 1 →
      FastLogicle.inverse lookup bins position =
        .ok ((1 - (position * (bins : ℝ) - (⌊position * (bins : ℝ)⌋ : ℝ))) *
            lookup ⌊position * (bins : ℝ)⌋ +
          (position * (bins : ℝ) - (⌊position * (bins : ℝ)⌋ : ℝ)) *
            lookup (⌊position * (bins : ℝ)⌋ + 1))) := by
  have hbr : (0 : ℝ) < (bins : ℝ) := by exact_mod_cast hb
  have h1 : ⌊position * (bins : ℝ)⌋ < 0 ↔ position < 0 := by
    constructor
    · intro h
      have hx : position * (bins : ℝ) < 0 := by
        have := Int.floor_lt.mp h
        simpa using this
      nlinarith
    · intro h
      have hx : position * (bins : ℝ) < ((0 : ℤ) : ℝ) := by
        push_cast
        nlinarith
      exact Int.floor_lt.mpr hx
  have h2 : bins ≤ ⌊position * (bins : ℝ)⌋ ↔ 1 ≤ position := by
    rw [Int.le_floor]
    constructor
    · intro h
      nlinarith
    · intro h
      nlinarith
  have key : (⌊position * (bins : ℝ)⌋ < 0 ∨ bins ≤ ⌊position * (bins : ℝ)⌋) ↔
      ¬(0 ≤ position ∧ position < 1) := by
    rw [not_and_or, not_le, not_lt, h1, h2]
  refine ⟨?_, ?_, ?_⟩
  · rw [FastLogicle.inverse]
    simp only []
    split_ifs with hcond
    · exact ⟨fun _ => key.mp hcond, fun _ => ⟨_, rfl⟩⟩
    · constructor
      · rintro ⟨e, he⟩
        exact absurd he (by simp)
      · intro hout
        exact absurd (key.mpr hout) hcond
  · rw [FastLogicle.inverse]
    simp only []
    split_ifs with hcond
    · intro e he
      injection he with he2
      exact he2.symm
    · intro e he
      exact absurd he (by simp)
  · intro hp0 hp1
    rw [FastLogicle.inverse]
    simp only []
    rw [if_neg (fun hc => (key.mp hc) ⟨hp0, hp1⟩)]

/-- Witness for C7: the accelerated inverse characterization on the
identity table with `bins = 2` at position `1/4`. -/
theorem fast_inverse_spec_witness :
    ((∃ e, FastLogicle.inverse idTable 2 (1/4) = .error e) ↔
      ¬(0 ≤ (1/4 : ℝ) ∧ (1/4 : ℝ) < 1)) ∧
    (∀ e, FastLogicle.inverse idTable 2 (1/4) = .error e →
      e = .illegalArgument (1/4)) ∧
    (0 ≤ (1/4 : ℝ) → (1/4 : ℝ) < 1 →
      FastLogicle.inverse idTable 2 (1/4) =
        .ok ((1 - ((1/4 : ℝ) * ((2 : ℤ) : ℝ) - (⌊(1/4 : ℝ) * ((2 : ℤ) : ℝ)⌋ : ℝ))) *
            idTable ⌊(1/4 : ℝ) * ((2 : ℤ) : ℝ)⌋ +
          ((1/4 : ℝ) * ((2 : ℤ) : ℝ) - (⌊(1/4 : ℝ) * ((2 : ℤ) : ℝ)⌋ : ℝ)) *
            idTable (⌊(1/4 : ℝ) * ((2 : ℤ) : ℝ)⌋ + 1))) :=
  fast_inverse_spec idTable 2 (1/4) (by norm_num)

/-- `getD` after `set`: the write lands iff the index matches and is in
range (`List.set` out of range is a no-op, like the C++ vector write is
undefined there). -/
theorem getD_set (l : List ℝ) (m : ℕ) (v : ℝ) (j : ℕ) :
    (l.set m v).getD j 0 = if m = j ∧ j < l.length then v else l.getD j 0 := by
  rcases Decidable.em (m = j ∧ j < l.length) with h | h
  · rw [if_pos h, List.getD_eq_getElem?_getD]
    obtain ⟨rfl, hlen⟩ := h
    rw [List.getElem?_set_eq_of_lt v hlen]
    rfl
  · rw [if_neg h, List.getD_eq_getElem?_getD, List.getD_eq_getElem?_getD]
    rcases Decidable.em (m = j) with he | he
    · subst he
      rw [List.getElem?_set_self', List.getElem?_eq_none (by omega : l.length ≤ m)]
      rfl
    · rw [List.getElem?_set_ne he]

/-- Every entry of a zero-filled vector reads 0. -/
theorem getD_replicate (n : ℕ) (j : ℕ) : (List.replicate n (0 : ℝ)).getD j 0 = 0 := by
  rcases Decidable.em (j < n) with h | h
  · rw [List.getD_eq_getElem?_getD, List.getElem?_replicate_of_lt h]
    rfl
  · rw [List.getD_eq_getElem?_getD, List.getElem?_eq_none (by simpa using h)]
    rfl

/-- The first label loop writes `-x, -10x, ...` decades below index `nn`,
their mirrors above it, leaves everything else alone, and multiplies the
running value by ten each round. -/
theorem fill1_spec : ∀ (r : ℕ) (l : List ℝ) (nn i : ℤ) (x : ℝ),
    0 < x → 1 ≤ i → (nn + 1 - i).toNat = r →
    (Logicle.fill1 l nn x i).1.length = l.length ∧
    0 < (Logicle.fill1 l nn x i).2 ∧
    (∀ j : ℕ, j < l.length →
      ((j : ℤ) ≤ nn - i → (Logicle.fill1 l nn x i).1.getD j 0 < 0) ∧
      (nn + i ≤ (j : ℤ) → (j : ℤ) ≤ nn + nn → 0 < (Logicle.fill1 l nn x i).1.getD j 0) ∧
      (nn - i < (j : ℤ) → (j : ℤ) < nn + i →
        (Logicle.fill1 l nn x i).1.getD j 0 = l.getD j 0) ∧
      (nn + nn < (j : ℤ) → (Logicle.fill1 l nn x i).1.getD j 0 = l.getD j 0)) := by
  intro r
  induction r with
  | zero =>
    intro l nn i x hx hi hr
    have hni : ¬ i ≤ nn := by omega
    rw [Logicle.fill1, if_neg hni]
    refine ⟨rfl, hx, fun j hj => ⟨?_, ?_, fun _ _ => rfl, fun _ => rfl⟩⟩
    · intro hji
      exact absurd hji (by omega)
    · intro hji hj2
      exact absurd hj2 (by omega)
  | succ r ih =>
    intro l nn i x hx hi hr
    by_cases hle : i ≤ nn
    · rw [Logicle.fill1, if_pos hle]
      have hlen2 : ((l.set (nn - i).toNat (-x)).set (nn + i).toNat x).length = l.length := by
        simp
      obtain ⟨ihl, ihx, ihj⟩ := ih ((l.set (nn - i).toNat (-x)).set (nn + i).toNat x)
        nn (i + 1) (x * 10) (by linarith) (by omega) (by omega)
      refine ⟨by rw [ihl, hlen2], ihx, fun j hj => ?_⟩
      obtain ⟨n1, p1, u1, u2⟩ := ihj j (by rw [hlen2]; exact hj)
      have hset : ((l.set (nn - i).toNat (-x)).set (nn + i).toNat x).getD j 0 =
          if (nn + i).toNat = j ∧ j < l.length then x
          else if (nn - i).toNat = j ∧ j < l.length then -x
          else l.getD j 0 := by
        rw [getD_set, getD_set]
        simp only [List.length_set]
      refine ⟨?_, ?_, ?_, ?_⟩
      · intro hji
        rcases lt_or_eq_of_le hji with hlt | heq
        · exact n1 (by omega)
        · rw [u1 (by omega) (by omega), hset,
            if_neg (fun hc => by omega), if_pos ⟨by omega, hj⟩]
          exact neg_lt_zero.mpr hx
      · intro hji hj2
        rcases lt_or_eq_of_le hji with hlt | heq
        · exact p1 (by omega) hj2
        · rw [u1 (by omega) (by omega), hset, if_pos ⟨by omega, hj⟩]
          exact hx
      · intro hji hj2
        rw [u1 (by omega) (by omega), hset,
          if_neg (fun hc => by omega), if_neg (fun hc => by omega)]
      · intro hji
        rw [u2 hji, hset,
          if_neg (fun hc => by omega), if_neg (fun hc => by omega)]
    · exact absurd hr (by omega)

/-- The second label loop writes positive decades at indices `nn + i ..
nn + np` and leaves everything else alone. -/
theorem fill2_spec : ∀ (r : ℕ) (l : List ℝ) (nn np i : ℤ) (x : ℝ),
    0 < x → 0 ≤ nn → 1 ≤ i → (np + 1 - i).toNat = r →
    (Logicle.fill2 l nn np x i).length = l.length ∧
    (∀ j : ℕ, j < l.length →
      (nn + i ≤ (j : ℤ) → (j : ℤ) ≤ nn + np → 0 < (Logicle.fill2 l nn np x i).getD j 0) ∧
      ((j : ℤ) < nn + i → (Logicle.fill2 l nn np x i).getD j 0 = l.getD j 0) ∧
      (nn + np < (j : ℤ) → (Logicle.fill2 l nn np x i).getD j 0 = l.getD j 0)) := by
  intro r
  induction r with
  | zero =>
    intro l nn np i x hx hnn hi hr
    have hni : ¬ i ≤ np := by omega
    rw [Logicle.fill2, if_neg hni]
    refine ⟨rfl, fun j hj => ⟨?_, fun _ => rfl, fun _ => rfl⟩⟩
    intro hji hj2
    exact absurd hj2 (by omega)
  | succ r ih =>
    intro l nn np i x hx hnn hi hr
    by_cases hle : i ≤ np
    · rw [Logicle.fill2, if_pos hle]
      have hlen2 : (l.set (nn + i).toNat x).length = l.length := by simp
      obtain ⟨ihl, ihj⟩ := ih (l.set (nn + i).toNat x) nn np (i + 1) (x * 10)
        (by linarith) hnn (by omega) (by omega)
      refine ⟨by rw [ihl, hlen2], fun j hj => ?_⟩
      obtain ⟨p1, u1, u2⟩ := ihj j (by rw [hlen2]; exact hj)
      refine ⟨?_, ?_, ?_⟩
      · intro hji hj2
        rcases lt_or_eq_of_le hji with hlt | heq
        · exact p1 (by omega) hj2
        · rw [u1 (by omega), getD_set, if_pos ⟨by omega, hj⟩]
          exact hx
      · intro hji
        rw [u1 (by omega), getD_set, if_neg (fun hc => by omega)]
      · intro hji
        rw [u2 hji, getD_set, if_neg (fun hc => by omega)]
    · exact absurd hr (by omega)

/-- Reading any entry of the zero-initialized, zero-at-`m` label vector. -/
theorem setZero_getD (k m j : ℕ) : ((List.replicate k (0 : ℝ)).set m 0).getD j 0 = 0 := by
  rw [getD_set]
  split_ifs
  · rfl
  · exact getD_replicate k j

/-- Packaged shape of the filled label vector: `nn` negative entries, the
zero entry, `np` positive entries (counts left and right of the zero need
not be equal). -/
theorem labels_package (nn np : ℤ) (x : ℝ) (l0 : List ℝ) (hnn : 0 ≤ nn) (hnp : 1 ≤ np)
    (hx : 0 < x) (hlen : l0.length = (nn + np + 1).toNat)
    (hzero : ∀ j : ℕ, j < l0.length → l0.getD j 0 = 0) :
    ∃ nnN npN : ℕ,
      (Logicle.fill2 (Logicle.fill1 l0 nn x 1).1 nn np
        (Logicle.fill1 l0 nn x 1).2 (nn + 1)).length = nnN + npN + 1 ∧
      1 ≤ npN ∧
      (∀ j : ℕ, j < nnN →
        (Logicle.fill2 (Logicle.fill1 l0 nn x 1).1 nn np
          (Logicle.fill1 l0 nn x 1).2 (nn + 1)).getD j 0 < 0) ∧
      (Logicle.fill2 (Logicle.fill1 l0 nn x 1).1 nn np
        (Logicle.fill1 l0 nn x 1).2 (nn + 1)).getD nnN 0 = 0 ∧
      (∀ j : ℕ, nnN < j → j < nnN + npN + 1 →
        0 < (Logicle.fill2 (Logicle.fill1 l0 nn x 1).1 nn np
          (Logicle.fill1 l0 nn x 1).2 (nn + 1)).getD j 0) := by
  obtain ⟨h1len, h1x, h1j⟩ := fill1_spec (nn + 1 - 1).toNat l0 nn 1 x hx le_rfl rfl
  obtain ⟨h2len, h2j⟩ := fill2_spec (np + 1 - (nn + 1)).toNat (Logicle.fill1 l0 nn x 1).1
    nn np (nn + 1) (Logicle.fill1 l0 nn x 1).2 h1x hnn (by omega) rfl
  refine ⟨nn.toNat, np.toNat, ?_, by omega, ?_, ?_, ?_⟩
  · rw [h2len, h1len, hlen]
    omega
  · intro j hj
    have hjl : j < l0.length := by rw [hlen]; omega
    obtain ⟨-, f2u, -⟩ := h2j j (by rw [h1len]; exact hjl)
    rw [f2u (by omega)]
    exact (h1j j hjl).1 (by omega)
  · have hjl : nn.toNat < l0.length := by rw [hlen]; omega
    obtain ⟨-, f2u, -⟩ := h2j nn.toNat (by rw [h1len]; exact hjl)
    rw [f2u (by omega)]
    obtain ⟨-, -, f1u, -⟩ := h1j nn.toNat hjl
    rw [f1u (by omega) (by omega)]
    exact hzero nn.toNat hjl
  · intro j hj1 hj2
    have hjl : j < l0.length := by rw [hlen]; omega
    obtain ⟨f2p, f2u, -⟩ := h2j j (by rw [h1len]; exact hjl)
    obtain ⟨-, f1p, -, -⟩ := h1j j hjl
    by_cases hmid : (j : ℤ) ≤ nn + nn
    · rw [f2u (by omega)]
      exact f1p (by omega) (by omega)
    · exact f2p (by omega) (by omega)

/-- C9 (amended): for every validly constructed transform the label vector
consists of some number of strictly negative entries, then exactly one
zero entry, then at least one strictly positive entry — but the negative
and positive counts need not be equal. -/
theorem axisLabels_amended (p : Logicle.Params) (h : Logicle.Derived p) :
    ∃ nn np : ℕ, (Logicle.axisLabels p).length = nn + np + 1 ∧ 1 ≤ np ∧
      (∀ j : ℕ, j < nn → (Logicle.axisLabels p).getD j 0 < 0) ∧
      (Logicle.axisLabels p).getD nn 0 = 0 ∧
      (∀ j : ℕ, nn < j → j < nn + np + 1 → 0 < (Logicle.axisLabels p).getD j 0) := by
  obtain ⟨hT, -, -⟩ := h
  have hln10 : 0 < Logicle.LN_10 := Real.log_pos (by norm_num)
  rw [Logicle.axisLabels]
  by_cases hT1 : p.T < Real.exp (Logicle.LN_10 *
      ((⌈Real.log p.T / Logicle.LN_10 - (p.M - 2 * p.W)⌉ : ℤ) : ℝ))
  · simp only [if_pos hT1]
    by_cases hB1 : -Logicle.inverse p 0 < (p.T, (1 : ℤ)).1
    · simp only [if_pos hB1]
      exact labels_package 0 1 p.T _ le_rfl le_rfl hT (by simp)
        (fun j _ => setZero_getD _ _ _)
    · simp only [if_neg hB1, if_pos (rfl : (p.T, (1 : ℤ)).1 = p.T)]
      exact labels_package 1 1 p.T _ (by norm_num) le_rfl hT (by simp)
        (fun j _ => setZero_getD _ _ _)
  · simp only [if_neg hT1]
    have hx0pos : 0 < Real.exp (Logicle.LN_10 *
        ((⌈Real.log p.T / Logicle.LN_10 - (p.M - 2 * p.W)⌉ : ℤ) : ℝ)) := Real.exp_pos _
    have hlogle : Logicle.LN_10 * ((⌈Real.log p.T / Logicle.LN_10 - (p.M - 2 * p.W)⌉ : ℤ) : ℝ) ≤
        Real.log p.T := by
      have := Real.log_le_log hx0pos (not_lt.mp hT1)
      rwa [Real.log_exp] at this
    have hnp0 : 0 ≤ ⌊Real.log p.T / Logicle.LN_10 -
        ((⌈Real.log p.T / Logicle.LN_10 - (p.M - 2 * p.W)⌉ : ℤ) : ℝ)⌋ := by
      apply Int.le_floor.mpr
      push_cast
      rw [le_sub_iff_add_le, zero_add, le_div_iff₀ hln10]
      linarith [hlogle]
    by_cases hB1 : -Logicle.inverse p 0 <
        (Real.exp (Logicle.LN_10 * ((⌈Real.log p.T / Logicle.LN_10 - (p.M - 2 * p.W)⌉ : ℤ) : ℝ)),
          ⌊Real.log p.T / Logicle.LN_10 -
            ((⌈Real.log p.T / Logicle.LN_10 - (p.M - 2 * p.W)⌉ : ℤ) : ℝ)⌋ + 1).1
    · simp only [if_pos hB1]
      exact labels_package 0 _ _ _ le_rfl (by omega) hx0pos (by simp)
        (fun j _ => setZero_getD _ _ _)
    · simp only [if_neg hB1]
      by_cases hEq : (Real.exp (Logicle.LN_10 *
          ((⌈Real.log p.T / Logicle.LN_10 - (p.M - 2 * p.W)⌉ : ℤ) : ℝ)),
            ⌊Real.log p.T / Logicle.LN_10 -
              ((⌈Real.log p.T / Logicle.LN_10 - (p.M - 2 * p.W)⌉ : ℤ) : ℝ)⌋ + 1).1 = p.T
      · simp only [if_pos hEq]
        exact labels_package 1 _ _ _ (by norm_num) (by omega) hx0pos (by simp)
          (fun j _ => setZero_getD _ _ _)
      · simp only [if_neg hEq]
        have hBpos : 0 < -Logicle.inverse p 0 := lt_of_lt_of_le hx0pos (not_lt.mp hB1)
        have hlogB : Logicle.LN_10 *
            ((⌈Real.log p.T / Logicle.LN_10 - (p.M - 2 * p.W)⌉ : ℤ) : ℝ) ≤
            Real.log (-Logicle.inverse p 0) := by
          have := Real.log_le_log hx0pos (not_lt.mp hB1)
          rwa [Real.log_exp] at this
        have hnn0 : 0 ≤ ⌊Real.log (-Logicle.inverse p 0) / Logicle.LN_10 -
            ((⌈Real.log p.T / Logicle.LN_10 - (p.M - 2 * p.W)⌉ : ℤ) : ℝ)⌋ := by
          apply Int.le_floor.mpr
          push_cast
          rw [le_sub_iff_add_le, zero_add, le_div_iff₀ hln10]
          linarith [hlogB]
        exact labels_package _ _ _ _ (by omega) (by omega) hx0pos (by simp)
          (fun j _ => setZero_getD _ _ _)

/-- Witness for C9 (amended): the label-vector shape at the concrete
`Derived` parameter set `wParams`. -/
theorem axisLabels_amended_witness :
    ∃ nn np : ℕ, (Logicle.axisLabels Logicle.wParams).length = nn + np + 1 ∧ 1 ≤ np ∧
      (∀ j : ℕ, j < nn → (Logicle.axisLabels Logicle.wParams).getD j 0 < 0) ∧
      (Logicle.axisLabels Logicle.wParams).getD nn 0 = 0 ∧
      (∀ j : ℕ, nn < j → j < nn + np + 1 →
        0 < (Logicle.axisLabels Logicle.wParams).getD j 0) :=
  axisLabels_amended Logicle.wParams ⟨by norm_num [Logicle.wParams], rfl, rfl⟩

/-- Evaluation of the construction `T = 10, W = 0, M = 1, A = 0, bins = 0`
(degenerate `W = 0`, so `solve` returns `d = b` exactly and every derived
quantity has a closed form). -/
theorem init10_eval : Logicle.init 10 0 1 0 0 = .ok
    ⟨10, 0, 1, 0, 100 / 99, Real.log 10, 100 / 99, Real.log 10, 0, 0, 0, 0, 0, 0,
      (Logicle.taylorGo (Real.log 10) (Real.log 10) (100 / 99) (-(100 / 99)) 0).set 1 0⟩ := by
  have hadj : Logicle.adjustA 0 1 0 0 = 0 := by
    rw [Logicle.adjustA, if_neg (by norm_num)]
  have hsolve : Logicle.solve ((1 + Logicle.adjustA 0 1 0 0) * Logicle.LN_10)
      (0 / (1 + Logicle.adjustA 0 1 0 0)) =
      .ok ((1 + Logicle.adjustA 0 1 0 0) * Logicle.LN_10) := by
    rw [Logicle.solve, if_pos (by rw [hadj]; norm_num)]
  rw [Logicle.init, if_neg (by norm_num), if_neg (by norm_num), if_neg (by norm_num),
    if_neg (by norm_num), if_neg (by norm_num)]
  try simp only []
  rw [hsolve]
  simp only [Except.map]
  congr 1
  rw [hadj, Logicle.LN_10]
  simp only [Logicle.Params.mk.injEq]
  norm_num [Real.exp_zero, Real.exp_log]

/-- Counterexample to C9 as stated: the valid construction
`T = 10, W = 0, M = 1, A = 0` yields the labels `[0, 1, 10]`: exactly one
zero, but zero negative labels versus two positive ones — the counts on
the two sides of the zero entry differ. -/
theorem axisLabels_equal_counts_counterexample :
    (Logicle.init 10 0 1 0 0).map Logicle.axisLabels = .ok [0, 1, 10] ∧
    ([(0 : ℝ), 1, 10].countP (fun t => decide (t < 0)) ≠
      [(0 : ℝ), 1, 10].countP (fun t => decide (0 < t))) := by
  have hlogne : Real.log 10 ≠ 0 := ne_of_gt (Real.log_pos (by norm_num))
  constructor
  · rw [init10_eval]
    simp only [Except.map]
    congr 1
    rw [Logicle.axisLabels, Logicle.inverse]
    dsimp only []
    rw [Logicle.LN_10, div_self hlogne]
    norm_num [Real.exp_zero, List.replicate, List.set]
    have e1 : Logicle.fill1 ([0, 0, 0] : List ℝ) 0 1 1 = ([0, 0, 0], 1) := by
      rw [Logicle.fill1, if_neg (by norm_num)]
    rw [e1]
    show Logicle.fill2 [0, 0, 0] 0 2 1 1 = [0, 1, 10]
    rw [Logicle.fill2, if_pos (by norm_num)]
    norm_num [List.set]
    rw [Logicle.fill2, if_pos (by norm_num)]
    norm_num [List.set]
    rw [Logicle.fill2, if_neg (by norm_num)]
  · norm_num [List.countP_cons, List.countP_nil]

/-- Table shape of the lookup accelerator (supporting C5): the table built
at construction has `bins + 1` entries and entry `i` holds the engine's
`inverse(i / bins)`.  (The strict monotonicity asserted by the spec is an
approximation property of the iteratively solved parameters and is not
derivable in the exact-real model.) -/
theorem buildLookup_entries (p : Logicle.Params) (bins : ℤ) :
    (FastLogicle.buildLookup p bins).length = (bins + 1).toNat ∧
    (∀ i : ℕ, i < (bins + 1).toNat →
      (FastLogicle.buildLookup p bins).getD i 0 =
        Logicle.inverse p ((i : ℝ) / (bins : ℝ))) := by
  constructor
  · simp [FastLogicle.buildLookup]
  · intro i hi
    rw [FastLogicle.buildLookup, List.getD_eq_getElem?_getD, List.getElem?_map,
      List.getElem?_range hi]
    rfl
